import Mathlib

/-!
Verification development for the two-view co-training classifier
(`CTClassifier`: `fit`, `predict`, `predict_proba`) described by the
design specification of this repository.  The implementation module is
not part of the source tree (only the tutorial notebook that calls it
is), so the engine is modelled from the specification text: base
classifiers are opaque probability-predicting functions, probabilities
are exact rationals, the unlabeled-pool sampling is driven by an
explicit seeded pseudo-random generator, and the sentinel-based label
vector is ingested as an option type.
-/

namespace CoTrain

/-- A feature row: the per-view feature vector of one sample. -/
abbrev Row : Type := List ℚ

/-- A view: one feature matrix, a list of rows sharing the sample axis. -/
abbrev View : Type := List Row

/-- Modelled from the spec: an opaque base classifier with the
capability set {fit, predict_proba}.  `fitc` trains on (row, class)
pairs (class `false` = negative class, `true` = positive class) and
yields a scoring function returning the pair
(probability of negative class, probability of positive class). -/
structure Classifier where
  fitc : List (Row × Bool) → Row → ℚ × ℚ

/-- Modelled from the spec: the configuration surface of `fit`:
`p` positive picks per round, `n` negative picks per round, the
unlabeled pool size, the maximal number of rounds, and the random
seed for reproducible pool sampling. -/
structure Config where
  p : ℕ
  n : ℕ
  poolSize : ℕ
  numIter : ℕ
  seed : ℕ

/-- Modelled from the spec: the error taxonomy surfaced by the library
boundary (DataError at fit time, ShapeError at prediction time). -/
inductive CTError where
  | dataError
  | shapeError
deriving DecidableEq

/-- A linear-congruential pseudo-random step: the explicit
random-generator handle demanded by the spec's design notes. -/
def rngNext (s : ℕ) : ℕ × ℕ :=
  let t := (1103515245 * s + 12345) % 2147483648
  (t, t)

/-- Remove and return the element at position `k` of a list
(position taken modulo the length by the caller). -/
def pickAt : ℕ → List ℕ → ℕ × List ℕ
  | _, [] => (0, [])
  | 0, x :: xs => (x, xs)
  | k + 1, x :: xs =>
    let res := pickAt k xs
    (res.1, x :: res.2)

/-- Draw `fuel` pseudo-random elements without replacement; returns
(drawn, untouched remainder, advanced generator). -/
def sampleLoop : ℕ → ℕ → List ℕ → List ℕ × List ℕ × ℕ
  | 0, rng, rem => ([], rem, rng)
  | _ + 1, rng, [] => ([], [], rng)
  | k + 1, rng, x :: xs =>
    let r := rngNext rng
    let pk := pickAt (r.1 % (x :: xs).length) (x :: xs)
    let res := sampleLoop k r.2 pk.2
    (pk.1 :: res.1, res.2.1, res.2.2)

/-- Modelled from the spec: `draw_pool(size)` samples, without
replacement, up to `size` indices from the unlabeled set using the
seeded generator; when the true unlabeled remainder does not exceed
`size` the pool is the entire remainder and no error is raised.
Returns (pool, rest of the remainder, advanced generator). -/
def drawPool (rng : ℕ) (unl : List ℕ) (size : ℕ) : List ℕ × List ℕ × ℕ :=
  if unl.length ≤ size then (unl, [], rng) else sampleLoop size rng unl

/-- Ranking order used for candidate selection: higher score first,
ties broken by stable original-index order (smaller index first). -/
def rankLe (f : ℕ → ℚ) (i j : ℕ) : Prop :=
  f j < f i ∨ (f i = f j ∧ i ≤ j)

instance (f : ℕ → ℚ) : DecidableRel (rankLe f) := fun i j =>
  decidable_of_iff (f j < f i ∨ (f i = f j ∧ i ≤ j)) Iff.rfl

instance (f : ℕ → ℚ) : IsTotal ℕ (rankLe f) := by
  constructor
  intro i j
  rcases lt_trichotomy (f i) (f j) with h | h | h
  · exact Or.inr (Or.inl h)
  · rcases Nat.le_total i j with hij | hij
    · exact Or.inl (Or.inr ⟨h, hij⟩)
    · exact Or.inr (Or.inr ⟨h.symm, hij⟩)
  · exact Or.inl (Or.inl h)

instance (f : ℕ → ℚ) : IsTrans ℕ (rankLe f) := by
  constructor
  intro i j k hij hjk
  rcases hij with h1 | ⟨h1, h1n⟩
  · rcases hjk with h2 | ⟨h2, _⟩
    · exact Or.inl (h2.trans h1)
    · exact Or.inl (h2 ▸ h1)
  · rcases hjk with h2 | ⟨h2, h2n⟩
    · exact Or.inl (by rw [h1]; exact h2)
    · exact Or.inr ⟨h1.trans h2, h1n.trans h2n⟩

/-- Modelled from the spec: select the top `k` pool indices under the
score `f`, descending, with the stable original-index tie-break. -/
def selectTop (f : ℕ → ℚ) (k : ℕ) (pool : List ℕ) : List ℕ :=
  (List.insertionSort (rankLe f) pool).take k

/-- One candidate nomination: a pool index, the pseudo-label proposed
for it, and the nominating view's confidence (the predicted
probability of the proposed class). -/
structure Pick where
  idx : ℕ
  lab : Bool
  conf : ℚ

/-- Maximum of a list of rationals, `none` on the empty list. -/
def listMax : List ℚ → Option ℚ
  | [] => none
  | q :: qs =>
    match listMax qs with
    | none => some q
    | some m => some (max q m)

/-- The confidences with which label `b` was proposed for index `i`. -/
def pickConfs (b : Bool) (i : ℕ) (picks : List Pick) : List ℚ :=
  picks.filterMap fun pk => if pk.idx = i ∧ pk.lab = b then some pk.conf else none

/-- The best (highest) confidence with which label `b` was proposed
for index `i`, if any. -/
def bestConf (b : Bool) (i : ℕ) (picks : List Pick) : Option ℚ :=
  listMax (pickConfs b i picks)

/-- Modelled from the spec: conflict resolution for one index.  If
only one label was proposed it wins; with conflicting labels the
higher absolute confidence wins; on a confidence tie the index is
excluded from this round's promotion. -/
def resolveIdx (picks : List Pick) (i : ℕ) : Option Bool :=
  match bestConf true i picks, bestConf false i picks with
  | none, none => none
  | some _, none => some true
  | none, some _ => some false
  | some cp, some cn =>
    if cn < cp then some true else if cp < cn then some false else none

/-- Resolve all nominations of a round into promoted
(index, pseudo-label) pairs, one entry per nominated index at most. -/
def resolve (picks : List Pick) : List (ℕ × Bool) :=
  (picks.map Pick.idx).dedup.filterMap fun i =>
    (resolveIdx picks i).map fun b => (i, b)

/-- Positive-class probability a scoring function gives pool index `i`. -/
def posScore (proba : Row → ℚ × ℚ) (v : View) (i : ℕ) : ℚ :=
  (proba (v.getD i [])).2

/-- Negative-class probability a scoring function gives pool index `i`. -/
def negScore (proba : Row → ℚ × ℚ) (v : View) (i : ℕ) : ℚ :=
  (proba (v.getD i [])).1

/-- Modelled from the spec: one view's candidates: the top `p`
positive-confidence and top `n` negative-confidence pool indices under
that view's ranking, labelled accordingly, carrying the confidence. -/
def viewPicks (proba : Row → ℚ × ℚ) (v : View) (p n : ℕ) (pool : List ℕ) :
    List Pick :=
  (selectTop (posScore proba v) p pool).map
      (fun i => ⟨i, true, posScore proba v i⟩)
    ++ (selectTop (negScore proba v) n pool).map
      (fun i => ⟨i, false, negScore proba v i⟩)

/-- Train a base classifier on the rows of its own view restricted to
the currently labeled indices. -/
def trainOn (c : Classifier) (v : View) (lab : List (ℕ × Bool)) : Row → ℚ × ℚ :=
  c.fitc (lab.map fun ib => (v.getD ib.1 [], ib.2))

/-- Per-round record: the drawn pool and the promoted pairs. -/
structure RoundLog where
  pool : List ℕ
  promoted : List (ℕ × Bool)

/-- The mutable state of the co-training engine: the labeled set with
pseudo-labels, the unlabeled remainder, the generator state, how many
times the classifiers were trained, how many rounds ran, and the
per-round history. -/
structure FitState where
  labeled : List (ℕ × Bool)
  unlabeled : List ℕ
  rng : ℕ
  fitCount : ℕ
  rounds : ℕ
  hist : List RoundLog

/-- Modelled from the spec: one co-training round.  Fit both view
classifiers on the current labeled set, draw the working pool, let
each view nominate its top candidates, cross-resolve conflicts, and
promote the resolved indices into the (shared) labeled set used to
retrain both views in later rounds. -/
def roundStep (cfg : Config) (k0 k1 : Classifier) (v0 v1 : View)
    (s : FitState) : FitState :=
  let f0 := trainOn k0 v0 s.labeled
  let f1 := trainOn k1 v1 s.labeled
  let dp := drawPool s.rng s.unlabeled cfg.poolSize
  let pool := dp.1
  let rest := dp.2.1
  let picks := viewPicks f0 v0 cfg.p cfg.n pool
    ++ viewPicks f1 v1 cfg.p cfg.n pool
  let promoted := resolve picks
  { labeled := s.labeled ++ promoted
    unlabeled := pool.filter (fun i => promoted.all fun ib => ib.1 != i) ++ rest
    rng := dp.2.2
    fitCount := s.fitCount + 1
    rounds := s.rounds + 1
    hist := s.hist ++ [⟨pool, promoted⟩] }

/-- Modelled from the spec: the round loop, terminal when the round
budget is spent or the unlabeled remainder (including the pool, which
is returned to the remainder between rounds) is exhausted. -/
def fitLoop (cfg : Config) (k0 k1 : Classifier) (v0 v1 : View) :
    ℕ → FitState → FitState
  | 0, s => s
  | k + 1, s =>
    if s.unlabeled.isEmpty then s
    else fitLoop cfg k0 k1 v0 v1 k (roundStep cfg k0 k1 v0 v1 s)

/-- Partition (from position `i` on) a sentinel-encoded label vector:
entries equal to class `a` become labeled negative, entries equal to
class `b` labeled positive, sentinel entries go to the unlabeled list. -/
def partitionIdx (a b : ℚ) : ℕ → List (Option ℚ) → List (ℕ × Bool) × List ℕ
  | _, [] => ([], [])
  | i, o :: rest =>
    let res := partitionIdx a b (i + 1) rest
    match o with
    | none => (res.1, i :: res.2)
    | some q =>
      if q = a then ((i, false) :: res.1, res.2)
      else if q = b then ((i, true) :: res.1, res.2)
      else res

/-- The distinct class values among the non-sentinel labels, in
ascending order. -/
def distinctLabels (labels : List (Option ℚ)) : List ℚ :=
  List.insertionSort (· ≤ ·) (labels.filterMap id).dedup

/-- The fitted model pair together with the two class values (the
inverse of the sentinel normalization) and the final engine state. -/
structure FitResult where
  f0 : Row → ℚ × ℚ
  f1 : Row → ℚ × ℚ
  negClass : ℚ
  posClass : ℚ
  final : FitState

/-- The engine state produced by the initial sentinel partition of the
label vector: nothing trained yet, no rounds run. -/
def initState (rng0 : ℕ) (a b : ℚ) (labels : List (Option ℚ)) : FitState :=
  ⟨(partitionIdx a b 0 labels).1, (partitionIdx a b 0 labels).2, rng0, 0, 0, []⟩

/-- The fitted model pair produced on the successful path of `fit`:
run the round loop from the initial partition, then train both
classifiers once more on the final labeled set. -/
def fitSuccess (rng0 : ℕ) (cfg : Config) (k0 k1 : Classifier) (v0 v1 : View)
    (labels : List (Option ℚ)) : FitResult :=
  let a := (distinctLabels labels).getD 0 0
  let b := (distinctLabels labels).getD 1 0
  let sf := fitLoop cfg k0 k1 v0 v1 cfg.numIter (initState rng0 a b labels)
  ⟨trainOn k0 v0 sf.labeled, trainOn k1 v1 sf.labeled, a, b,
    { sf with fitCount := sf.fitCount + 1 }⟩

/-- The engine state at loop exit on the successful path of `fit`. -/
def loopFinal (rng0 : ℕ) (cfg : Config) (k0 k1 : Classifier) (v0 v1 : View)
    (labels : List (Option ℚ)) : FitState :=
  fitLoop cfg k0 k1 v0 v1 cfg.numIter
    (initState rng0 ((distinctLabels labels).getD 0 0)
      ((distinctLabels labels).getD 1 0) labels)

/-- Modelled from the spec: `fit` with an explicit generator handle.
Validation first: DataError when a view's sample count disagrees with
the labels' length or fewer than two distinct classes are labeled;
then the initial partition, the round loop, and a final training of
both classifiers on the final labeled set. -/
def ctFitWith (rng0 : ℕ) (cfg : Config) (k0 k1 : Classifier) (v0 v1 : View)
    (labels : List (Option ℚ)) : Except CTError FitResult :=
  if v0.length ≠ labels.length ∨ v1.length ≠ labels.length then
    Except.error CTError.dataError
  else if (distinctLabels labels).length < 2 then
    Except.error CTError.dataError
  else
    Except.ok (fitSuccess rng0 cfg k0 k1 v0 v1 labels)

/-- Modelled from the spec: `fit`, threading the configured seed into
the explicit generator handle. -/
def ctFit (cfg : Config) (k0 k1 : Classifier) (v0 v1 : View)
    (labels : List (Option ℚ)) : Except CTError FitResult :=
  ctFitWith cfg.seed cfg k0 k1 v0 v1 labels

/-- Elementwise average of the two views' probability rows. -/
def combineRow (q0 q1 : ℚ × ℚ) : ℚ × ℚ :=
  ((q0.1 + q1.1) / 2, (q0.2 + q1.2) / 2)

/-- The combined probability rows: per sample, the mean of the two
fitted view-classifiers' probability rows. -/
def probaRows (m : FitResult) (v0 v1 : View) : List (ℚ × ℚ) :=
  (v0.zip v1).map fun rr => combineRow (m.f0 rr.1) (m.f1 rr.2)

/-- Modelled from the spec: `predict_proba`: per sample, the mean of
the two fitted view-classifiers' probability rows; ShapeError when
the views' sample counts disagree. -/
def ctPredictProba (m : FitResult) (v0 v1 : View) :
    Except CTError (List (ℚ × ℚ)) :=
  if v0.length ≠ v1.length then Except.error CTError.shapeError
  else Except.ok (probaRows m v0 v1)

/-- The class of the larger entry of a combined probability row; on a
tie the lower-indexed class (the negative class) wins. -/
def argmaxClass (cneg cpos : ℚ) (q : ℚ × ℚ) : ℚ :=
  if q.1 < q.2 then cpos else cneg

/-- Modelled from the spec: `predict`: per sample, the class with the
higher combined probability, ties to the lower-indexed class. -/
def ctPredict (m : FitResult) (v0 v1 : View) : Except CTError (List ℚ) :=
  if v0.length ≠ v1.length then Except.error CTError.shapeError
  else Except.ok ((v0.zip v1).map fun rr =>
    let q := combineRow (m.f0 rr.1) (m.f1 rr.2)
    if q.1 < q.2 then m.posClass else m.negClass)

/-- Engine-state sanity: the labeled indices together with the
unlabeled remainder form a duplicate-free family of sample indices
below the sample count `N`. -/
def GoodState (N : ℕ) (s : FitState) : Prop :=
  (s.labeled.map Prod.fst ++ s.unlabeled).Nodup ∧
    ∀ j ∈ s.labeled.map Prod.fst ++ s.unlabeled, j < N

/-- A placeholder fitted model, used only to give `fitOr` a total type. -/
def dfltR : FitResult :=
  ⟨fun _ => (0, 0), fun _ => (0, 0), 0, 0, ⟨[], [], 0, 0, 0, []⟩⟩

/-- Extract the fitted model from a fit outcome, with a fallback. -/
def fitOr (d : FitResult) (e : Except CTError FitResult) : FitResult :=
  match e with
  | .ok r => r
  | .error _ => d

/-- A concrete base classifier that always reports the positive class
with full confidence. -/
def kPos : Classifier := ⟨fun _ _ => (0, 1)⟩

/-- A concrete base classifier that always reports the negative class
with full confidence. -/
def kNeg : Classifier := ⟨fun _ _ => (1, 0)⟩

/-- A concrete base classifier scoring by the first feature of a row:
rows whose first feature is at least 2 get the positive class. -/
def kThr : Classifier := ⟨fun _ r => if r.getD 0 0 < 2 then (1, 0) else (0, 1)⟩

/-- A concrete five-sample single-feature view used by witnesses. -/
def vW : View := [[0], [1], [2], [3], [4]]

/-- A concrete sentinel-encoded label vector used by witnesses:
two labeled samples of distinct classes, three unlabeled. -/
def lblW : List (Option ℚ) := [some 0, some 1, none, none, none]

/-- Extract the predicted labels from a predict outcome, with fallback. -/
def predOr (d : List ℚ) (e : Except CTError (List ℚ)) : List ℚ :=
  match e with
  | .ok l => l
  | .error _ => d

/-- A concrete configuration used by witnesses. -/
def cfgW : Config := ⟨1, 1, 2, 3, 7⟩

/-- A concrete configuration with a zero round budget. -/
def cfg0 : Config := ⟨1, 1, 2, 0, 7⟩

/-- A concrete fitted model pair used by prediction witnesses. -/
def mW : FitResult :=
  ⟨fun _ => (0, 1), fun _ => (1, 0), 5, 7, ⟨[], [], 0, 0, 0, []⟩⟩

/-- A concrete two-sample view used by prediction witnesses. -/
def vA : View := [[3], [4]]

/-- Concrete conflicting nominations for one index used by witnesses. -/
def picksW : List Pick := [⟨0, true, 3⟩, ⟨0, false, 1⟩]

theorem pickAt_perm :
    ∀ (k : ℕ) (l : List ℕ), k < l.length →
      ((pickAt k l).1 :: (pickAt k l).2).Perm l := by
  intro k
  induction k with
  | zero =>
    intro l hl
    match l with
    | [] => simp at hl
    | x :: xs => simp [pickAt]
  | succ k ih =>
    intro l hl
    match l with
    | [] => simp at hl
    | x :: xs =>
      have hk : k < xs.length := by simpa using hl
      have h1 := ih xs hk
      have h2 : (pickAt (k + 1) (x :: xs)).1 :: (pickAt (k + 1) (x :: xs)).2
          = (pickAt k xs).1 :: x :: (pickAt k xs).2 := by simp [pickAt]
      rw [h2]
      exact (List.Perm.swap x (pickAt k xs).1 (pickAt k xs).2).trans (h1.cons x)

theorem sampleLoop_perm :
    ∀ (fuel rng : ℕ) (l : List ℕ),
      ((sampleLoop fuel rng l).1 ++ (sampleLoop fuel rng l).2.1).Perm l := by
  intro fuel
  induction fuel with
  | zero => intro rng l; simp [sampleLoop]
  | succ k ih =>
    intro rng l
    match l with
    | [] => simp [sampleLoop]
    | x :: xs =>
      have hm : (rngNext rng).1 % (x :: xs).length < (x :: xs).length :=
        Nat.mod_lt _ (by simp)
      have hpk := pickAt_perm ((rngNext rng).1 % (x :: xs).length) (x :: xs) hm
      have hi := ih (rngNext rng).2 (pickAt ((rngNext rng).1 % (x :: xs).length) (x :: xs)).2
      simp only [sampleLoop, List.cons_append]
      exact (hi.cons _).trans hpk

theorem sampleLoop_fst_length :
    ∀ (fuel rng : ℕ) (l : List ℕ), fuel ≤ l.length →
      (sampleLoop fuel rng l).1.length = fuel := by
  intro fuel
  induction fuel with
  | zero => intro rng l _; simp [sampleLoop]
  | succ k ih =>
    intro rng l hl
    match l with
    | [] => simp at hl
    | x :: xs =>
      have hm : (rngNext rng).1 % (x :: xs).length < (x :: xs).length :=
        Nat.mod_lt _ (by simp)
      have hlen : ((pickAt ((rngNext rng).1 % (x :: xs).length) (x :: xs)).1 ::
          (pickAt ((rngNext rng).1 % (x :: xs).length) (x :: xs)).2).length
            = (x :: xs).length :=
        (pickAt_perm _ _ hm).length_eq
      have hxs : k ≤ (pickAt ((rngNext rng).1 % (x :: xs).length) (x :: xs)).2.length := by
        simp only [List.length_cons] at hlen hl ⊢
        omega
      simp only [List.length_cons] at hxs
      simp only [sampleLoop, List.length_cons]
      rw [ih _ _ hxs]

theorem drawPool_perm (rng : ℕ) (unl : List ℕ) (size : ℕ) :
    ((drawPool rng unl size).1 ++ (drawPool rng unl size).2.1).Perm unl := by
  unfold drawPool
  split
  · simp
  · exact sampleLoop_perm size rng unl

theorem drawPool_fst_length (rng : ℕ) (unl : List ℕ) (size : ℕ) :
    (drawPool rng unl size).1.length = min size unl.length := by
  unfold drawPool
  split
  · next h => simp [Nat.min_eq_right h]
  · next h =>
    rw [sampleLoop_fst_length size rng unl (le_of_not_le h)]
    exact (Nat.min_eq_left (le_of_not_le h)).symm

theorem drawPool_full (rng : ℕ) (unl : List ℕ) (size : ℕ)
    (h : unl.length ≤ size) : drawPool rng unl size = (unl, [], rng) := by
  unfold drawPool
  rw [if_pos h]

theorem selectTop_length (f : ℕ → ℚ) (k : ℕ) (pool : List ℕ) :
    (selectTop f k pool).length = min k pool.length := by
  unfold selectTop
  rw [List.length_take, List.length_insertionSort]

theorem selectTop_subset {f : ℕ → ℚ} {k : ℕ} {pool : List ℕ} :
    ∀ i ∈ selectTop f k pool, i ∈ pool := by
  intro i hi
  exact (List.mem_insertionSort _).mp (List.take_subset k _ hi)

theorem selectTop_rank {f : ℕ → ℚ} {k : ℕ} {pool : List ℕ} :
    ∀ i ∈ selectTop f k pool, ∀ j ∈ pool, j ∉ selectTop f k pool →
      f j < f i ∨ (f j = f i ∧ i < j) := by
  intro i hi j hj hjn
  simp only [selectTop] at hi hjn
  have hsort : List.Sorted (rankLe f) (List.insertionSort (rankLe f) pool) :=
    List.sorted_insertionSort _ pool
  have hjL : j ∈ List.insertionSort (rankLe f) pool :=
    (List.mem_insertionSort _).mpr hj
  have hsplit := List.take_append_drop k (List.insertionSort (rankLe f) pool)
  have hjd : j ∈ (List.insertionSort (rankLe f) pool).drop k := by
    have hj2 : j ∈ (List.insertionSort (rankLe f) pool).take k ++
        (List.insertionSort (rankLe f) pool).drop k := by
      rw [hsplit]; exact hjL
    rcases List.mem_append.mp hj2 with h | h
    · exact absurd h hjn
    · exact h
  have hpw : List.Pairwise (rankLe f)
      ((List.insertionSort (rankLe f) pool).take k ++
        (List.insertionSort (rankLe f) pool).drop k) := by
    rw [hsplit]; exact hsort
  have hij : rankLe f i j := (List.pairwise_append.mp hpw).2.2 i hi j hjd
  have hne : i ≠ j := fun h => hjn (h ▸ hi)
  rcases hij with h | ⟨h, hle⟩
  · exact Or.inl h
  · exact Or.inr ⟨h.symm, lt_of_le_of_ne hle hne⟩

theorem listMax_eq_none {qs : List ℚ} : listMax qs = none ↔ qs = [] := by
  cases qs with
  | nil => simp [listMax]
  | cons a t =>
    simp only [listMax]
    cases h : listMax t <;> simp

theorem listMax_mem : ∀ {qs : List ℚ} {q : ℚ}, listMax qs = some q → q ∈ qs := by
  intro qs
  induction qs with
  | nil => intro q h; simp [listMax] at h
  | cons a t ih =>
    intro q h
    simp only [listMax] at h
    cases ht : listMax t with
    | none => rw [ht] at h; simp at h; simp [h]
    | some m =>
      rw [ht] at h
      simp only [Option.some.injEq] at h
      rcases max_choice a m with hc | hc
      · simp [← h, hc]
      · right
        rw [← h, hc]
        exact ih ht

theorem listMax_le : ∀ {qs : List ℚ} {q : ℚ}, listMax qs = some q →
    ∀ x ∈ qs, x ≤ q := by
  intro qs
  induction qs with
  | nil => intro q _ x hx; simp at hx
  | cons a t ih =>
    intro q h x hx
    simp only [listMax] at h
    cases ht : listMax t with
    | none =>
      rw [ht] at h
      simp only [Option.some.injEq] at h
      rcases List.mem_cons.mp hx with hx | hx
      · rw [hx, h]
      · rw [listMax_eq_none.mp ht] at hx; simp at hx
    | some m =>
      rw [ht] at h
      simp only [Option.some.injEq] at h
      rcases List.mem_cons.mp hx with hx | hx
      · rw [hx, ← h]; exact le_max_left a m
      · exact le_trans (ih ht x hx) (by rw [← h]; exact le_max_right a m)

theorem pickConfs_mem {b : Bool} {i : ℕ} {picks : List Pick} {c : ℚ} :
    c ∈ pickConfs b i picks ↔
      ∃ pk ∈ picks, pk.idx = i ∧ pk.lab = b ∧ pk.conf = c := by
  unfold pickConfs
  rw [List.mem_filterMap]
  constructor
  · rintro ⟨pk, hpk, hc⟩
    by_cases h : pk.idx = i ∧ pk.lab = b
    · rw [if_pos h] at hc
      exact ⟨pk, hpk, h.1, h.2, Option.some_inj.mp hc⟩
    · rw [if_neg h] at hc; exact absurd hc (by simp)
  · rintro ⟨pk, hpk, h1, h2, h3⟩
    exact ⟨pk, hpk, by rw [if_pos ⟨h1, h2⟩, h3]⟩

theorem bestConf_exists {b : Bool} {i : ℕ} {picks : List Pick} {c : ℚ}
    (h : bestConf b i picks = some c) :
    ∃ pk ∈ picks, pk.idx = i ∧ pk.lab = b ∧ pk.conf = c :=
  pickConfs_mem.mp (listMax_mem h)

theorem bestConf_ge {b : Bool} {i : ℕ} {picks : List Pick} {c : ℚ}
    (h : bestConf b i picks = some c) :
    ∀ pk ∈ picks, pk.idx = i → pk.lab = b → pk.conf ≤ c := by
  intro pk hpk h1 h2
  exact listMax_le h pk.conf (pickConfs_mem.mpr ⟨pk, hpk, h1, h2, rfl⟩)

theorem bestConf_isSome {b : Bool} {i : ℕ} {picks : List Pick} {pk : Pick}
    (hpk : pk ∈ picks) (h1 : pk.idx = i) (h2 : pk.lab = b) :
    ∃ c, bestConf b i picks = some c := by
  cases h : bestConf b i picks with
  | some c => exact ⟨c, rfl⟩
  | none =>
    have : pk.conf ∈ pickConfs b i picks := pickConfs_mem.mpr ⟨pk, hpk, h1, h2, rfl⟩
    rw [listMax_eq_none.mp h] at this
    simp at this

theorem resolve_mem {picks : List Pick} {i : ℕ} {b : Bool} :
    (i, b) ∈ resolve picks ↔
      i ∈ (picks.map Pick.idx).dedup ∧ resolveIdx picks i = some b := by
  unfold resolve
  rw [List.mem_filterMap]
  constructor
  · rintro ⟨a, ha, hfa⟩
    rcases Option.map_eq_some'.mp hfa with ⟨b0, hb0, hab⟩
    have hai : a = i := congrArg Prod.fst hab
    have hbb : b0 = b := congrArg Prod.snd hab
    exact ⟨hai ▸ ha, by rw [← hai, hb0, hbb]⟩
  · rintro ⟨hi, hr⟩
    exact ⟨i, hi, by rw [hr]; rfl⟩

theorem filterMap_tag_fst_sublist (l : List ℕ) (g : ℕ → Option Bool) :
    ((l.filterMap fun i => (g i).map fun b => (i, b)).map Prod.fst).Sublist l := by
  induction l with
  | nil => simp
  | cons a t ih =>
    rw [List.filterMap_cons]
    cases h : (g a).map fun b => (a, b) with
    | none => exact ih.cons a
    | some x =>
      rcases Option.map_eq_some'.mp h with ⟨b0, _, hx⟩
      rw [← hx]
      simpa using ih.cons₂ a

theorem resolve_fst_sublist (picks : List Pick) :
    ((resolve picks).map Prod.fst).Sublist (picks.map Pick.idx).dedup :=
  filterMap_tag_fst_sublist _ _

theorem resolve_fst_nodup (picks : List Pick) :
    ((resolve picks).map Prod.fst).Nodup :=
  (resolve_fst_sublist picks).nodup (List.nodup_dedup _)

theorem resolve_exists_pick {picks : List Pick} :
    ∀ ib ∈ resolve picks, ∃ pk ∈ picks, pk.idx = ib.1 := by
  rintro ⟨i, b⟩ h
  have hi := (resolve_mem.mp h).1
  rcases List.mem_map.mp (List.mem_dedup.mp hi) with ⟨pk, hpk, heq⟩
  exact ⟨pk, hpk, heq⟩

theorem viewPicks_idx_mem {proba : Row → ℚ × ℚ} {v : View} {p n : ℕ}
    {pool : List ℕ} : ∀ pk ∈ viewPicks proba v p n pool, pk.idx ∈ pool := by
  intro pk hpk
  unfold viewPicks at hpk
  rcases List.mem_append.mp hpk with h | h <;>
  · rcases List.mem_map.mp h with ⟨i, hi, hieq⟩
    rw [← hieq]
    exact selectTop_subset i hi

theorem roundStep_labeled (cfg : Config) (k0 k1 : Classifier) (v0 v1 : View)
    (s : FitState) :
    (roundStep cfg k0 k1 v0 v1 s).labeled =
      s.labeled ++ resolve
        (viewPicks (trainOn k0 v0 s.labeled) v0 cfg.p cfg.n
            (drawPool s.rng s.unlabeled cfg.poolSize).1
          ++ viewPicks (trainOn k1 v1 s.labeled) v1 cfg.p cfg.n
            (drawPool s.rng s.unlabeled cfg.poolSize).1) := rfl

theorem goodState_labeled_le {N : ℕ} {s : FitState} (h : GoodState N s) :
    s.labeled.length ≤ N := by
  obtain ⟨hnd, hbd⟩ := h
  have hA : (s.labeled.map Prod.fst).Nodup := hnd.of_append_left
  have hsub : (s.labeled.map Prod.fst).toFinset ⊆ Finset.range N := by
    intro x hx
    rw [List.mem_toFinset] at hx
    rw [Finset.mem_range]
    exact hbd x (List.mem_append.mpr (Or.inl hx))
  have hcard := Finset.card_le_card hsub
  rw [List.toFinset_card_of_nodup hA, Finset.card_range, List.length_map] at hcard
  exact hcard

theorem roundStep_good {N : ℕ} {cfg : Config} {k0 k1 : Classifier}
    {v0 v1 : View} {s : FitState} (h : GoodState N s) :
    GoodState N (roundStep cfg k0 k1 v0 v1 s) := by
  obtain ⟨hnd, hbd⟩ := h
  set dp := drawPool s.rng s.unlabeled cfg.poolSize with hdp
  set pool := dp.1
  set rest := dp.2.1
  set picks := viewPicks (trainOn k0 v0 s.labeled) v0 cfg.p cfg.n pool
    ++ viewPicks (trainOn k1 v1 s.labeled) v1 cfg.p cfg.n pool with hpicks
  set promoted := resolve picks with hprom
  have hperm : (pool ++ rest).Perm s.unlabeled := drawPool_perm _ _ _
  have hU : s.unlabeled.Nodup := hnd.of_append_right
  have hA : (s.labeled.map Prod.fst).Nodup := hnd.of_append_left
  have hdisjAU : (s.labeled.map Prod.fst).Disjoint s.unlabeled :=
    (List.nodup_append.mp hnd).2.2
  have hPR : (pool ++ rest).Nodup := hperm.nodup_iff.mpr hU
  have hpool : pool.Nodup := hPR.of_append_left
  have hrest : rest.Nodup := hPR.of_append_right
  have hdisjpr : pool.Disjoint rest := (List.nodup_append.mp hPR).2.2
  have hPpool : ∀ x ∈ promoted.map Prod.fst, x ∈ pool := by
    intro x hx
    rcases List.mem_map.mp hx with ⟨ib, hib, hfst⟩
    rcases resolve_exists_pick ib hib with ⟨pk, hpk, hidx⟩
    have : pk.idx ∈ pool := by
      rcases List.mem_append.mp hpk with hm | hm
      · exact viewPicks_idx_mem pk hm
      · exact viewPicks_idx_mem pk hm
    rw [← hfst, ← hidx]
    exact this
  have hPnd : (promoted.map Prod.fst).Nodup := resolve_fst_nodup picks
  have hmemU : ∀ x, x ∈ pool ∨ x ∈ rest → x ∈ s.unlabeled := by
    intro x hx
    exact hperm.mem_iff.mp (List.mem_append.mpr hx)
  set F := pool.filter (fun i => promoted.all fun ib => ib.1 != i) with hF
  have hFsub : ∀ x ∈ F, x ∈ pool := fun x hx => List.mem_of_mem_filter hx
  have hFnd : F.Nodup := (List.filter_sublist pool).nodup hpool
  have hFnotP : ∀ x ∈ F, x ∉ promoted.map Prod.fst := by
    intro x hx hxP
    have hcond := List.of_mem_filter hx
    rw [List.all_eq_true] at hcond
    rcases List.mem_map.mp hxP with ⟨ib, hib, hfst⟩
    have := hcond ib hib
    rw [bne_iff_ne] at this
    exact this hfst
  constructor
  · show ((s.labeled ++ promoted).map Prod.fst ++ (F ++ rest)).Nodup
    rw [List.map_append]
    rw [List.nodup_append]
    refine ⟨?_, ?_, ?_⟩
    · rw [List.nodup_append]
      refine ⟨hA, hPnd, ?_⟩
      intro x hxA hxP
      exact hdisjAU hxA (hmemU x (Or.inl (hPpool x hxP)))
    · rw [List.nodup_append]
      refine ⟨hFnd, hrest, ?_⟩
      intro x hxF hxR
      exact hdisjpr (hFsub x hxF) hxR
    · intro x hxAP hxFR
      rcases List.mem_append.mp hxAP with hx | hx
      · rcases List.mem_append.mp hxFR with hy | hy
        · exact hdisjAU hx (hmemU x (Or.inl (hFsub x hy)))
        · exact hdisjAU hx (hmemU x (Or.inr hy))
      · rcases List.mem_append.mp hxFR with hy | hy
        · exact hFnotP x hy hx
        · exact hdisjpr (hPpool x hx) hy
  · show ∀ j ∈ (s.labeled ++ promoted).map Prod.fst ++ (F ++ rest), j < N
    intro j hj
    rw [List.map_append] at hj
    have hjU : j ∈ s.labeled.map Prod.fst ++ s.unlabeled := by
      rcases List.mem_append.mp hj with hx | hx
      · rcases List.mem_append.mp hx with hy | hy
        · exact List.mem_append.mpr (Or.inl hy)
        · exact List.mem_append.mpr (Or.inr (hmemU j (Or.inl (hPpool j hy))))
      · rcases List.mem_append.mp hx with hy | hy
        · exact List.mem_append.mpr (Or.inr (hmemU j (Or.inl (hFsub j hy))))
        · exact List.mem_append.mpr (Or.inr (hmemU j (Or.inr hy)))
    exact hbd j hjU

theorem fitLoop_good {N : ℕ} {cfg : Config} {k0 k1 : Classifier}
    {v0 v1 : View} :
    ∀ (fuel : ℕ) (s : FitState), GoodState N s →
      GoodState N (fitLoop cfg k0 k1 v0 v1 fuel s) := by
  intro fuel
  induction fuel with
  | zero => intro s h; exact h
  | succ k ih =>
    intro s h
    rw [fitLoop]
    split
    · exact h
    · exact ih _ (roundStep_good h)

theorem fitLoop_labeled_extend {cfg : Config} {k0 k1 : Classifier}
    {v0 v1 : View} :
    ∀ (fuel : ℕ) (s : FitState),
      ∃ t, (fitLoop cfg k0 k1 v0 v1 fuel s).labeled = s.labeled ++ t := by
  intro fuel
  induction fuel with
  | zero => intro s; exact ⟨[], by simp [fitLoop]⟩
  | succ k ih =>
    intro s
    rw [fitLoop]
    split
    · exact ⟨[], by simp⟩
    · rcases ih (roundStep cfg k0 k1 v0 v1 s) with ⟨t, ht⟩
      rw [roundStep_labeled, List.append_assoc] at ht
      exact ⟨_, ht⟩

theorem partitionIdx_none (a b : ℚ) (i : ℕ) (t : List (Option ℚ)) :
    partitionIdx a b i (none :: t) =
      ((partitionIdx a b (i + 1) t).1, i :: (partitionIdx a b (i + 1) t).2) :=
  rfl

theorem partitionIdx_some_a (a b : ℚ) (i : ℕ) (t : List (Option ℚ)) {q : ℚ}
    (h : q = a) :
    partitionIdx a b i (some q :: t) =
      ((i, false) :: (partitionIdx a b (i + 1) t).1,
        (partitionIdx a b (i + 1) t).2) := by
  simp only [partitionIdx]
  rw [if_pos h]

theorem partitionIdx_some_b (a b : ℚ) (i : ℕ) (t : List (Option ℚ)) {q : ℚ}
    (h1 : q ≠ a) (h2 : q = b) :
    partitionIdx a b i (some q :: t) =
      ((i, true) :: (partitionIdx a b (i + 1) t).1,
        (partitionIdx a b (i + 1) t).2) := by
  simp only [partitionIdx]
  rw [if_neg h1, if_pos h2]

theorem partitionIdx_some_other (a b : ℚ) (i : ℕ) (t : List (Option ℚ)) {q : ℚ}
    (h1 : q ≠ a) (h2 : q ≠ b) :
    partitionIdx a b i (some q :: t) = partitionIdx a b (i + 1) t := by
  simp only [partitionIdx]
  rw [if_neg h1, if_neg h2]

theorem partitionIdx_bound_nodup (a b : ℚ) :
    ∀ (ls : List (Option ℚ)) (i : ℕ),
      (∀ j ∈ (partitionIdx a b i ls).1.map Prod.fst ++ (partitionIdx a b i ls).2,
        i ≤ j ∧ j < i + ls.length) ∧
      ((partitionIdx a b i ls).1.map Prod.fst ++ (partitionIdx a b i ls).2).Nodup := by
  intro ls
  induction ls with
  | nil => intro i; simp [partitionIdx]
  | cons o t ih =>
    intro i
    obtain ⟨ihb, ihn⟩ := ih (i + 1)
    have hnoti : i ∉ (partitionIdx a b (i + 1) t).1.map Prod.fst ++
        (partitionIdx a b (i + 1) t).2 := by
      intro hmem
      have := (ihb i hmem).1
      omega
    match o with
    | none =>
      rw [partitionIdx_none]
      constructor
      · intro j hj
        simp only [List.mem_append, List.mem_cons] at hj
        simp only [List.length_cons]
        rcases hj with hx | hx | hx
        · have := ihb j (List.mem_append.mpr (Or.inl hx)); omega
        · omega
        · have := ihb j (List.mem_append.mpr (Or.inr hx)); omega
      · rw [List.nodup_middle]
        exact List.nodup_cons.mpr ⟨hnoti, ihn⟩
    | some q =>
      by_cases hqa : q = a
      · rw [partitionIdx_some_a a b i t hqa]
        constructor
        · intro j hj
          simp only [List.map_cons, List.cons_append, List.mem_cons,
            List.mem_append] at hj
          simp only [List.length_cons]
          rcases hj with hx | hx | hx
          · omega
          · have := ihb j (List.mem_append.mpr (Or.inl hx)); omega
          · have := ihb j (List.mem_append.mpr (Or.inr hx)); omega
        · simp only [List.map_cons, List.cons_append]
          exact List.nodup_cons.mpr ⟨hnoti, ihn⟩
      · by_cases hqb : q = b
        · rw [partitionIdx_some_b a b i t hqa hqb]
          constructor
          · intro j hj
            simp only [List.map_cons, List.cons_append, List.mem_cons,
              List.mem_append] at hj
            simp only [List.length_cons]
            rcases hj with hx | hx | hx
            · omega
            · have := ihb j (List.mem_append.mpr (Or.inl hx)); omega
            · have := ihb j (List.mem_append.mpr (Or.inr hx)); omega
          · simp only [List.map_cons, List.cons_append]
            exact List.nodup_cons.mpr ⟨hnoti, ihn⟩
        · rw [partitionIdx_some_other a b i t hqa hqb]
          constructor
          · intro j hj
            have := ihb j hj
            simp only [List.length_cons]
            omega
          · exact ihn

theorem initState_good (rng0 : ℕ) (a b : ℚ) (labels : List (Option ℚ)) :
    GoodState labels.length (initState rng0 a b labels) := by
  obtain ⟨hb, hn⟩ := partitionIdx_bound_nodup a b labels 0
  exact ⟨hn, fun j hj => by have := (hb j hj).2; omega⟩

theorem roundStep_rounds (cfg : Config) (k0 k1 : Classifier) (v0 v1 : View)
    (s : FitState) : (roundStep cfg k0 k1 v0 v1 s).rounds = s.rounds + 1 :=
  rfl

theorem fitLoop_rounds {cfg : Config} {k0 k1 : Classifier} {v0 v1 : View} :
    ∀ (fuel : ℕ) (s : FitState),
      (fitLoop cfg k0 k1 v0 v1 fuel s).rounds ≤ s.rounds + fuel ∧
      ((fitLoop cfg k0 k1 v0 v1 fuel s).rounds < s.rounds + fuel →
        (fitLoop cfg k0 k1 v0 v1 fuel s).unlabeled = []) := by
  intro fuel
  induction fuel with
  | zero =>
    intro s
    exact ⟨Nat.le_refl _, fun h => absurd h (by simp [fitLoop])⟩
  | succ k ih =>
    intro s
    rw [fitLoop]
    split
    · next hemp =>
      refine ⟨Nat.le_add_right _ _, fun _ => ?_⟩
      exact List.isEmpty_iff.mp hemp
    · obtain ⟨ih1, ih2⟩ := ih (roundStep cfg k0 k1 v0 v1 s)
      rw [roundStep_rounds] at ih1 ih2
      exact ⟨by omega, fun h => ih2 (by omega)⟩

theorem mem_distinctLabels {labels : List (Option ℚ)} {q : ℚ} :
    q ∈ distinctLabels labels ↔ some q ∈ labels := by
  unfold distinctLabels
  rw [List.mem_insertionSort, List.mem_dedup, List.mem_filterMap]
  constructor
  · rintro ⟨o, ho, hid⟩
    exact (show o = some q from hid) ▸ ho
  · intro h
    exact ⟨some q, h, rfl⟩

theorem nodup_distinctLabels (labels : List (Option ℚ)) :
    (distinctLabels labels).Nodup :=
  (List.perm_insertionSort _ _).nodup_iff.mpr (List.nodup_dedup _)

theorem two_le_distinct_iff {labels : List (Option ℚ)} :
    2 ≤ (distinctLabels labels).length ↔
      ∃ a b, a ≠ b ∧ some a ∈ labels ∧ some b ∈ labels := by
  constructor
  · intro h
    cases hds : distinctLabels labels with
    | nil => rw [hds] at h; simp at h
    | cons x t =>
      cases t with
      | nil => rw [hds] at h; simp at h
      | cons y t2 =>
        have hnd := nodup_distinctLabels labels
        rw [hds] at hnd
        have hxy : x ≠ y := by
          intro hxe
          exact (List.nodup_cons.mp hnd).1 (hxe ▸ List.mem_cons_self y t2)
        have hx : x ∈ distinctLabels labels := by rw [hds]; simp
        have hy : y ∈ distinctLabels labels := by rw [hds]; simp
        exact ⟨x, y, hxy, mem_distinctLabels.mp hx, mem_distinctLabels.mp hy⟩
  · rintro ⟨a, b, hab, ha, hb⟩
    have ha2 : a ∈ distinctLabels labels := mem_distinctLabels.mpr ha
    have hb2 : b ∈ distinctLabels labels := mem_distinctLabels.mpr hb
    cases hds : distinctLabels labels with
    | nil => rw [hds] at ha2; simp at ha2
    | cons x t =>
      cases t with
      | nil =>
        rw [hds] at ha2 hb2
        simp at ha2 hb2
        exact absurd (ha2.trans hb2.symm) hab
      | cons y t2 => simp [List.length_cons]

theorem ctFit_ok_elim {cfg : Config} {k0 k1 : Classifier} {v0 v1 : View}
    {labels : List (Option ℚ)} {r : FitResult}
    (h : ctFit cfg k0 k1 v0 v1 labels = Except.ok r) :
    v0.length = labels.length ∧ v1.length = labels.length ∧
      2 ≤ (distinctLabels labels).length ∧
      r = fitSuccess cfg.seed cfg k0 k1 v0 v1 labels := by
  unfold ctFit ctFitWith at h
  split_ifs at h with h1 h2
  push_neg at h1
  exact ⟨h1.1, h1.2, by omega, (Except.ok.inj h).symm⟩

theorem ctFit_error_iff {cfg : Config} {k0 k1 : Classifier} {v0 v1 : View}
    {labels : List (Option ℚ)} :
    ctFit cfg k0 k1 v0 v1 labels = Except.error CTError.dataError ↔
      (v0.length ≠ labels.length ∨ v1.length ≠ labels.length ∨
        (distinctLabels labels).length < 2) := by
  unfold ctFit ctFitWith
  split_ifs with h1 h2
  · simp only [true_iff]
    tauto
  · simp only [true_iff]
    tauto
  · push_neg at h1
    simp only [false_iff]
    push_neg
    exact ⟨h1.1, h1.2, by omega⟩

theorem ctFit_error_elim {cfg : Config} {k0 k1 : Classifier} {v0 v1 : View}
    {labels : List (Option ℚ)} {e : CTError}
    (h : ctFit cfg k0 k1 v0 v1 labels = Except.error e) :
    e = CTError.dataError := by
  unfold ctFit ctFitWith at h
  split_ifs at h
  · exact (Except.error.inj h).symm
  · exact (Except.error.inj h).symm

theorem fitSuccess_final_rounds (rng0 : ℕ) (cfg : Config) (k0 k1 : Classifier)
    (v0 v1 : View) (labels : List (Option ℚ)) :
    (fitSuccess rng0 cfg k0 k1 v0 v1 labels).final.rounds =
      (loopFinal rng0 cfg k0 k1 v0 v1 labels).rounds := rfl

theorem fitSuccess_final_unlabeled (rng0 : ℕ) (cfg : Config)
    (k0 k1 : Classifier) (v0 v1 : View) (labels : List (Option ℚ)) :
    (fitSuccess rng0 cfg k0 k1 v0 v1 labels).final.unlabeled =
      (loopFinal rng0 cfg k0 k1 v0 v1 labels).unlabeled := rfl

theorem fitSuccess_final_labeled (rng0 : ℕ) (cfg : Config)
    (k0 k1 : Classifier) (v0 v1 : View) (labels : List (Option ℚ)) :
    (fitSuccess rng0 cfg k0 k1 v0 v1 labels).final.labeled =
      (loopFinal rng0 cfg k0 k1 v0 v1 labels).labeled := rfl

theorem fitSuccess_final_fitCount (rng0 : ℕ) (cfg : Config)
    (k0 k1 : Classifier) (v0 v1 : View) (labels : List (Option ℚ)) :
    (fitSuccess rng0 cfg k0 k1 v0 v1 labels).final.fitCount =
      (loopFinal rng0 cfg k0 k1 v0 v1 labels).fitCount + 1 := rfl

theorem fitSuccess_negClass (rng0 : ℕ) (cfg : Config) (k0 k1 : Classifier)
    (v0 v1 : View) (labels : List (Option ℚ)) :
    (fitSuccess rng0 cfg k0 k1 v0 v1 labels).negClass =
      (distinctLabels labels).getD 0 0 := rfl

theorem fitSuccess_posClass (rng0 : ℕ) (cfg : Config) (k0 k1 : Classifier)
    (v0 v1 : View) (labels : List (Option ℚ)) :
    (fitSuccess rng0 cfg k0 k1 v0 v1 labels).posClass =
      (distinctLabels labels).getD 1 0 := rfl

theorem fitSuccess_f0 (rng0 : ℕ) (cfg : Config) (k0 k1 : Classifier)
    (v0 v1 : View) (labels : List (Option ℚ)) :
    (fitSuccess rng0 cfg k0 k1 v0 v1 labels).f0 =
      trainOn k0 v0 (loopFinal rng0 cfg k0 k1 v0 v1 labels).labeled := rfl

theorem fitSuccess_f1 (rng0 : ℕ) (cfg : Config) (k0 k1 : Classifier)
    (v0 v1 : View) (labels : List (Option ℚ)) :
    (fitSuccess rng0 cfg k0 k1 v0 v1 labels).f1 =
      trainOn k1 v1 (loopFinal rng0 cfg k0 k1 v0 v1 labels).labeled := rfl

theorem resolveIdx_both {picks : List Pick} {i : ℕ} {cp cn : ℚ}
    (hcp : bestConf true i picks = some cp)
    (hcn : bestConf false i picks = some cn) :
    resolveIdx picks i =
      if cn < cp then some true else if cp < cn then some false else none := by
  unfold resolveIdx
  rw [hcp, hcn]

theorem resolveIdx_pick {picks : List Pick} {x : ℕ} {b2 : Bool}
    (h : resolveIdx picks x = some b2) :
    ∃ pk ∈ picks, pk.idx = x ∧ pk.lab = b2 := by
  cases hp : bestConf true x picks with
  | none =>
    cases hn : bestConf false x picks with
    | none =>
      have he : resolveIdx picks x = none := by unfold resolveIdx; rw [hp, hn]
      rw [he] at h
      cases h
    | some cn =>
      have he : resolveIdx picks x = some false := by
        unfold resolveIdx; rw [hp, hn]
      rw [he] at h
      have hb : b2 = false := (Option.some.inj h).symm
      rcases bestConf_exists hn with ⟨pk, hpk, h1, h2, _⟩
      exact ⟨pk, hpk, h1, hb ▸ h2⟩
  | some cp =>
    cases hn : bestConf false x picks with
    | none =>
      have he : resolveIdx picks x = some true := by
        unfold resolveIdx; rw [hp, hn]
      rw [he] at h
      have hb : b2 = true := (Option.some.inj h).symm
      rcases bestConf_exists hp with ⟨pk, hpk, h1, h2, _⟩
      exact ⟨pk, hpk, h1, hb ▸ h2⟩
    | some cn =>
      rw [resolveIdx_both hp hn] at h
      by_cases h1 : cn < cp
      · rw [if_pos h1] at h
        have hb : b2 = true := (Option.some.inj h).symm
        rcases bestConf_exists hp with ⟨pk, hpk, hx1, hx2, _⟩
        exact ⟨pk, hpk, hx1, hb ▸ hx2⟩
      · rw [if_neg h1] at h
        by_cases h2 : cp < cn
        · rw [if_pos h2] at h
          have hb : b2 = false := (Option.some.inj h).symm
          rcases bestConf_exists hn with ⟨pk, hpk, hx1, hx2, _⟩
          exact ⟨pk, hpk, hx1, hb ▸ hx2⟩
        · rw [if_neg h2] at h
          cases h

theorem bestConf_idx_dedup {b : Bool} {i : ℕ} {picks : List Pick} {c : ℚ}
    (h : bestConf b i picks = some c) : i ∈ (picks.map Pick.idx).dedup := by
  rcases bestConf_exists h with ⟨pk, hpk, h1, _, _⟩
  exact List.mem_dedup.mpr (List.mem_map.mpr ⟨pk, hpk, h1⟩)

/-- C1: per round, each view ranks the pool by positive-class
probability and nominates the top `p` positive-confidence and top `n`
negative-confidence pool indices, ties broken by stable original-index
order (a selected index beats an unselected one either strictly on
score, or on equal score by having the smaller original index); every
promoted pair stems from a nomination with that label; when one index
is nominated with conflicting labels, the side with the strictly
higher best confidence wins and the loser is not promoted, while equal
best confidences exclude the index from the round's promotion; and the
resolved promotions are appended to the shared labeled set on which
both views (in particular the other view) are retrained. -/
theorem cotraining_selection_spec :
    ∀ (f : ℕ → ℚ) (k : ℕ) (pool : List ℕ) (proba : Row → ℚ × ℚ) (v : View)
      (p n : ℕ) (picks : List Pick) (i : ℕ) (cp cn : ℚ) (cfg : Config)
      (k0 k1 : Classifier) (v0 v1 : View) (s : FitState),
      (selectTop f k pool).length = min k pool.length ∧
      (∀ x ∈ selectTop f k pool, x ∈ pool) ∧
      (∀ x ∈ selectTop f k pool, ∀ j ∈ pool, j ∉ selectTop f k pool →
        f j < f x ∨ (f j = f x ∧ x < j)) ∧
      viewPicks proba v p n pool =
        (selectTop (posScore proba v) p pool).map
            (fun x => ⟨x, true, posScore proba v x⟩)
          ++ (selectTop (negScore proba v) n pool).map
            (fun x => ⟨x, false, negScore proba v x⟩) ∧
      (∀ x b2, (x, b2) ∈ resolve picks →
        ∃ pk ∈ picks, pk.idx = x ∧ pk.lab = b2) ∧
      (bestConf true i picks = some cp → bestConf false i picks = some cn →
        (cn < cp → (i, true) ∈ resolve picks ∧ (i, false) ∉ resolve picks) ∧
        (cp < cn → (i, false) ∈ resolve picks ∧ (i, true) ∉ resolve picks) ∧
        (cp = cn → (i, true) ∉ resolve picks ∧ (i, false) ∉ resolve picks)) ∧
      (roundStep cfg k0 k1 v0 v1 s).labeled = s.labeled ++ resolve
        (viewPicks (trainOn k0 v0 s.labeled) v0 cfg.p cfg.n
            (drawPool s.rng s.unlabeled cfg.poolSize).1
          ++ viewPicks (trainOn k1 v1 s.labeled) v1 cfg.p cfg.n
            (drawPool s.rng s.unlabeled cfg.poolSize).1) := by
  intro f k pool proba v p n picks i cp cn cfg k0 k1 v0 v1 s
  refine ⟨selectTop_length f k pool, selectTop_subset, selectTop_rank, rfl,
    fun x b2 hx => resolveIdx_pick (resolve_mem.mp hx).2, ?_,
    roundStep_labeled cfg k0 k1 v0 v1 s⟩
  intro hcp hcn
  have hdedup := bestConf_idx_dedup hcp
  have hres := resolveIdx_both hcp hcn
  refine ⟨?_, ?_, ?_⟩
  · intro hlt
    constructor
    · exact resolve_mem.mpr ⟨hdedup, by rw [hres, if_pos hlt]⟩
    · intro hmem
      have hx := (resolve_mem.mp hmem).2
      rw [hres, if_pos hlt] at hx
      simp at hx
  · intro hlt
    have hnlt : ¬ cn < cp := lt_asymm hlt
    constructor
    · exact resolve_mem.mpr ⟨hdedup, by rw [hres, if_neg hnlt, if_pos hlt]⟩
    · intro hmem
      have hx := (resolve_mem.mp hmem).2
      rw [hres, if_neg hnlt, if_pos hlt] at hx
      simp at hx
  · intro heq
    have h1 : ¬ cn < cp := by rw [heq]; exact lt_irrefl cn
    have h2 : ¬ cp < cn := by rw [heq]; exact lt_irrefl cn
    constructor
    · intro hmem
      have hx := (resolve_mem.mp hmem).2
      rw [hres, if_neg h1, if_neg h2] at hx
      cases hx
    · intro hmem
      have hx := (resolve_mem.mp hmem).2
      rw [hres, if_neg h1, if_neg h2] at hx
      cases hx

/-- C1 witness: a two-element pool with tied scores (the smaller
original index is selected), and an index nominated with conflicting
labels where the more confident positive nomination wins. -/
theorem cotraining_selection_spec_witness :
    ((fun _ : ℕ => (1 : ℚ)) 5 < (fun _ : ℕ => (1 : ℚ)) 3 ∨
      ((fun _ : ℕ => (1 : ℚ)) 5 = (fun _ : ℕ => (1 : ℚ)) 3 ∧ 3 < 5)) ∧
      (0, true) ∈ resolve picksW ∧ (0, false) ∉ resolve picksW :=
  ⟨(cotraining_selection_spec (fun _ => (1 : ℚ)) 1 [3, 5] (fun _ => (0, 1))
      vW 1 1 picksW 0 3 1 cfgW kPos kNeg vW vW dfltR.final).2.2.1
      3 (by decide) 5 (by decide) (by decide),
    ((cotraining_selection_spec (fun _ => (1 : ℚ)) 1 [3, 5] (fun _ => (0, 1))
      vW 1 1 picksW 0 3 1 cfgW kPos kNeg vW vW dfltR.final).2.2.2.2.2.1
      (by decide) (by decide)).1 (by decide)⟩

/-- C2: for every input accepted by `fit`, the round loop terminates:
it runs at most `num_iter` rounds, and whenever it stops earlier the
unlabeled remainder (the pool included, since unpromoted pool indices
return to the remainder after each round) is exhausted — in this model
a round whose remainder is nonempty always finds candidates, so
zero-candidate early termination coincides with remainder exhaustion. -/
theorem fit_terminates :
    ∀ (cfg : Config) (k0 k1 : Classifier) (v0 v1 : View)
      (labels : List (Option ℚ)) (r : FitResult),
      ctFit cfg k0 k1 v0 v1 labels = Except.ok r →
      r.final.rounds ≤ cfg.numIter ∧
        (r.final.rounds < cfg.numIter → r.final.unlabeled = []) := by
  intro cfg k0 k1 v0 v1 labels r hok
  obtain ⟨-, -, -, hr⟩ := ctFit_ok_elim hok
  subst hr
  rw [fitSuccess_final_rounds, fitSuccess_final_unlabeled]
  obtain ⟨h1, h2⟩ := @fitLoop_rounds cfg k0 k1 v0 v1 cfg.numIter
    (initState cfg.seed ((distinctLabels labels).getD 0 0)
      ((distinctLabels labels).getD 1 0) labels)
  have h0 : (initState cfg.seed ((distinctLabels labels).getD 0 0)
      ((distinctLabels labels).getD 1 0) labels).rounds = 0 := rfl
  rw [h0, Nat.zero_add] at h1 h2
  exact ⟨h1, h2⟩

/-- C2 witness: a full concrete run of `fit`. -/
theorem fit_terminates_witness :
    (fitOr dfltR (ctFit cfgW kThr kPos vW vW lblW)).final.rounds ≤
        cfgW.numIter ∧
      ((fitOr dfltR (ctFit cfgW kThr kPos vW vW lblW)).final.rounds <
          cfgW.numIter →
        (fitOr dfltR (ctFit cfgW kThr kPos vW vW lblW)).final.unlabeled = []) :=
  fit_terminates cfgW kThr kPos vW vW lblW
    (fitOr dfltR (ctFit cfgW kThr kPos vW vW lblW)) rfl

/-- C3: the labeled set only grows: each round's labeled set extends
the previous one (promoted pairs are appended, nothing is removed),
the loop as a whole only appends, and on any accepted input the final
labeled set never exceeds the number of samples supplied to `fit`. -/
theorem labeledSet_monotone :
    ∀ (cfg : Config) (k0 k1 : Classifier) (v0 v1 : View)
      (labels : List (Option ℚ)) (r : FitResult) (s : FitState) (fuel : ℕ),
      (∃ t, (roundStep cfg k0 k1 v0 v1 s).labeled = s.labeled ++ t) ∧
      (∃ t, (fitLoop cfg k0 k1 v0 v1 fuel s).labeled = s.labeled ++ t) ∧
      (ctFit cfg k0 k1 v0 v1 labels = Except.ok r →
        r.final.labeled.length ≤ labels.length) := by
  intro cfg k0 k1 v0 v1 labels r s fuel
  refine ⟨⟨_, roundStep_labeled cfg k0 k1 v0 v1 s⟩,
    fitLoop_labeled_extend fuel s, ?_⟩
  intro hok
  obtain ⟨-, -, -, hr⟩ := ctFit_ok_elim hok
  subst hr
  rw [fitSuccess_final_labeled]
  have hg := @fitLoop_good labels.length cfg k0 k1 v0 v1 cfg.numIter
    (initState cfg.seed ((distinctLabels labels).getD 0 0)
      ((distinctLabels labels).getD 1 0) labels)
    (initState_good cfg.seed ((distinctLabels labels).getD 0 0)
      ((distinctLabels labels).getD 1 0) labels)
  exact goodState_labeled_le hg

/-- C3 witness: the size bound evaluated on a concrete run. -/
theorem labeledSet_monotone_witness :
    (fitOr dfltR (ctFit cfgW kThr kPos vW vW lblW)).final.labeled.length ≤
      lblW.length :=
  (labeledSet_monotone cfgW kThr kPos vW vW lblW
    (fitOr dfltR (ctFit cfgW kThr kPos vW vW lblW)) dfltR.final 0).2.2 rfl

/-- C6: `draw_pool` samples without replacement from the unlabeled
remainder: the pool and the untouched rest together are a permutation
of the remainder, the pool holds `min size remainder` indices, it is
duplicate-free whenever the remainder is, and when the remainder does
not exceed the requested size the pool is exactly the whole remainder
and no error is raised. -/
theorem drawPool_spec :
    ∀ (rng : ℕ) (unl : List ℕ) (size : ℕ),
      ((drawPool rng unl size).1 ++ (drawPool rng unl size).2.1).Perm unl ∧
      (drawPool rng unl size).1.length = min size unl.length ∧
      (unl.Nodup → (drawPool rng unl size).1.Nodup) ∧
      (unl.length ≤ size → drawPool rng unl size = (unl, [], rng)) := by
  intro rng unl size
  refine ⟨drawPool_perm rng unl size, drawPool_fst_length rng unl size, ?_,
    drawPool_full rng unl size⟩
  intro h
  exact (((drawPool_perm rng unl size).nodup_iff).mpr h).of_append_left

/-- C6 witness: a remainder smaller than the requested pool size. -/
theorem drawPool_spec_witness :
    (drawPool 9 [4, 7, 2] 5).1.Nodup ∧
      drawPool 9 [4, 7, 2] 5 = ([4, 7, 2], [], 9) :=
  ⟨(drawPool_spec 9 [4, 7, 2] 5).2.2.1 (by decide),
    (drawPool_spec 9 [4, 7, 2] 5).2.2.2 (by decide)⟩

/-- C7: `fit` fails with DataError exactly when a view's sample count
disagrees with the labels' length or fewer than two distinct classes
appear among the non-sentinel labels, and DataError is the only error
`fit` raises; the classifiers are universally quantified outside the
equivalence, so the failure is decided before any training occurs. -/
theorem fit_dataError_iff :
    ∀ (cfg : Config) (k0 k1 : Classifier) (v0 v1 : View)
      (labels : List (Option ℚ)),
      (ctFit cfg k0 k1 v0 v1 labels = Except.error CTError.dataError ↔
        v0.length ≠ labels.length ∨ v1.length ≠ labels.length ∨
          ¬ ∃ a b, a ≠ b ∧ some a ∈ labels ∧ some b ∈ labels) ∧
      ∀ e, ctFit cfg k0 k1 v0 v1 labels = Except.error e →
        e = CTError.dataError := by
  intro cfg k0 k1 v0 v1 labels
  constructor
  · rw [ctFit_error_iff]
    have h := @two_le_distinct_iff labels
    constructor
    · rintro (h1 | h1 | h1)
      · exact Or.inl h1
      · exact Or.inr (Or.inl h1)
      · refine Or.inr (Or.inr ?_)
        intro hex
        have := h.mpr hex
        omega
    · rintro (h1 | h1 | h1)
      · exact Or.inl h1
      · exact Or.inr (Or.inl h1)
      · refine Or.inr (Or.inr ?_)
        by_contra hcon
        exact h1 (h.mp (by omega))
  · exact fun e he => ctFit_error_elim he

/-- C7 witness: a sample-count mismatch is rejected with DataError. -/
theorem fit_dataError_iff_witness :
    ctFit cfgW kPos kNeg [[0], [1]] vW lblW = Except.error CTError.dataError :=
  (fit_dataError_iff cfgW kPos kNeg [[0], [1]] vW lblW).1.mpr
    (Or.inl (by decide))

/-- C9: with equal seeds and otherwise identical configurations,
classifiers, views and labels, two runs of `fit` coincide completely:
same outcome, and in particular the same per-round history of pool
draws and promotions. -/
theorem fit_seed_deterministic :
    ∀ (cfg cfg2 : Config) (k0 k1 : Classifier) (v0 v1 : View)
      (labels : List (Option ℚ)),
      cfg.p = cfg2.p → cfg.n = cfg2.n → cfg.poolSize = cfg2.poolSize →
      cfg.numIter = cfg2.numIter → cfg.seed = cfg2.seed →
      ctFit cfg k0 k1 v0 v1 labels = ctFit cfg2 k0 k1 v0 v1 labels ∧
      ∀ r r2, ctFit cfg k0 k1 v0 v1 labels = Except.ok r →
        ctFit cfg2 k0 k1 v0 v1 labels = Except.ok r2 →
        r.final.hist = r2.final.hist := by
  intro cfg cfg2 k0 k1 v0 v1 labels h1 h2 h3 h4 h5
  have hcfg : cfg = cfg2 := by
    cases cfg
    cases cfg2
    simp_all
  subst hcfg
  refine ⟨rfl, ?_⟩
  intro r r2 hr hr2
  rw [hr] at hr2
  rw [Except.ok.inj hr2]

/-- C4: on matching views, `predict` returns per sample exactly the
argmax class of the corresponding row of `predict_proba` (the mean of
the two view-classifiers' probability rows), ties deterministically
broken towards the lower-indexed class. -/
theorem predict_argmax :
    ∀ (m : FitResult) (v0 v1 : View), v0.length = v1.length →
      ctPredict m v0 v1 = (ctPredictProba m v0 v1).map
        (fun pr => pr.map (argmaxClass m.negClass m.posClass)) := by
  intro m v0 v1 h
  unfold ctPredict ctPredictProba probaRows
  rw [if_neg (by omega), if_neg (by omega)]
  show Except.ok _ = Except.ok (List.map (argmaxClass m.negClass m.posClass)
    (List.map (fun rr => combineRow (m.f0 rr.1) (m.f1 rr.2)) (List.zip v0 v1)))
  rw [List.map_map]
  rfl

/-- C4 witness: the argmax relation on a concrete fitted pair. -/
theorem predict_argmax_witness :
    vA.length = vA.length ∧
      ctPredict mW vA vA = (ctPredictProba mW vA vA).map
        (fun pr => pr.map (argmaxClass mW.negClass mW.posClass)) :=
  ⟨rfl, predict_argmax mW vA vA rfl⟩

/-- C5: on matching views of `m` samples, and base classifiers meeting
their probability contract, `predict_proba` succeeds with exactly `m`
rows, each holding exactly two non-negative entries summing to 1. -/
theorem predictProba_distribution :
    ∀ (m : FitResult) (v0 v1 : View), v0.length = v1.length →
      (∀ row : Row, 0 ≤ (m.f0 row).1 ∧ 0 ≤ (m.f0 row).2 ∧
        (m.f0 row).1 + (m.f0 row).2 = 1) →
      (∀ row : Row, 0 ≤ (m.f1 row).1 ∧ 0 ≤ (m.f1 row).2 ∧
        (m.f1 row).1 + (m.f1 row).2 = 1) →
      ctPredictProba m v0 v1 = Except.ok (probaRows m v0 v1) ∧
        (probaRows m v0 v1).length = v0.length ∧
        ∀ q ∈ probaRows m v0 v1, 0 ≤ q.1 ∧ 0 ≤ q.2 ∧ q.1 + q.2 = 1 := by
  intro m v0 v1 hlen h0 h1
  refine ⟨by unfold ctPredictProba; rw [if_neg (by omega)], ?_, ?_⟩
  · unfold probaRows
    rw [List.length_map, List.length_zip, hlen, Nat.min_self]
  · intro q hq
    unfold probaRows at hq
    rcases List.mem_map.mp hq with ⟨rr, _, hq2⟩
    obtain ⟨ha0, hb0, hs0⟩ := h0 rr.1
    obtain ⟨ha1, hb1, hs1⟩ := h1 rr.2
    rw [← hq2]
    unfold combineRow
    refine ⟨by positivity, by positivity, by linarith⟩

/-- C5 witness: the contract conjunction on a concrete fitted pair. -/
theorem predictProba_distribution_witness :
    ctPredictProba mW vA vA = Except.ok (probaRows mW vA vA) ∧
      (probaRows mW vA vA).length = vA.length ∧
      ∀ q ∈ probaRows mW vA vA, 0 ≤ q.1 ∧ 0 ≤ q.2 ∧ q.1 + q.2 = 1 :=
  predictProba_distribution mW vA vA rfl
    (fun _ => ⟨le_refl 0, zero_le_one, zero_add 1⟩)
    (fun _ => ⟨zero_le_one, le_refl 0, add_zero 1⟩)

/-- C8: with `num_iter = 0` the round loop never runs: the labeled set
after `fit` is exactly the initial sentinel partition, zero rounds are
recorded, and both view classifiers are nevertheless trained exactly
once, on that initial labeled data. -/
theorem fit_zero_iter :
    ∀ (cfg : Config) (k0 k1 : Classifier) (v0 v1 : View)
      (labels : List (Option ℚ)) (r : FitResult),
      cfg.numIter = 0 →
      ctFit cfg k0 k1 v0 v1 labels = Except.ok r →
      r.final.labeled = (partitionIdx ((distinctLabels labels).getD 0 0)
          ((distinctLabels labels).getD 1 0) 0 labels).1 ∧
        r.final.rounds = 0 ∧ r.final.fitCount = 1 ∧
        r.f0 = trainOn k0 v0 r.final.labeled ∧
        r.f1 = trainOn k1 v1 r.final.labeled := by
  intro cfg k0 k1 v0 v1 labels r h0 hok
  obtain ⟨-, -, -, hr⟩ := ctFit_ok_elim hok
  subst hr
  have hloop : loopFinal cfg.seed cfg k0 k1 v0 v1 labels =
      initState cfg.seed ((distinctLabels labels).getD 0 0)
        ((distinctLabels labels).getD 1 0) labels := by
    unfold loopFinal
    rw [h0]
    rfl
  refine ⟨?_, ?_, ?_, ?_, ?_⟩
  · rw [fitSuccess_final_labeled, hloop]
    rfl
  · rw [fitSuccess_final_rounds, hloop]
    rfl
  · rw [fitSuccess_final_fitCount, hloop]
    rfl
  · rw [fitSuccess_f0, fitSuccess_final_labeled]
  · rw [fitSuccess_f1, fitSuccess_final_labeled]

/-- C8 witness: a concrete zero-round run. -/
theorem fit_zero_iter_witness :
    (fitOr dfltR (ctFit cfg0 kThr kPos vW vW lblW)).final.rounds = 0 ∧
      (fitOr dfltR (ctFit cfg0 kThr kPos vW vW lblW)).final.fitCount = 1 :=
  ⟨(fit_zero_iter cfg0 kThr kPos vW vW lblW
      (fitOr dfltR (ctFit cfg0 kThr kPos vW vW lblW)) rfl rfl).2.1,
    (fit_zero_iter cfg0 kThr kPos vW vW lblW
      (fitOr dfltR (ctFit cfg0 kThr kPos vW vW lblW)) rfl rfl).2.2.1⟩

/-- C10: when the non-sentinel labels use exactly the caller's two
class values, every entry `predict` returns after a successful `fit`
is one of those two original values: the sentinel normalization is
inverted on the way out. -/
theorem predict_returns_original_classes :
    ∀ (cfg : Config) (k0 k1 : Classifier) (v0 v1 w0 w1 : View)
      (labels : List (Option ℚ)) (r : FitResult) (out : List ℚ) (a b : ℚ),
      (∀ q, some q ∈ labels → q = a ∨ q = b) →
      ctFit cfg k0 k1 v0 v1 labels = Except.ok r →
      ctPredict r w0 w1 = Except.ok out →
      ∀ y ∈ out, y = a ∨ y = b := by
  intro cfg k0 k1 v0 v1 w0 w1 labels r out a b hab hok hpred
  obtain ⟨-, -, hd2, hr⟩ := ctFit_ok_elim hok
  subst hr
  have hneg : (distinctLabels labels).getD 0 0 ∈ distinctLabels labels := by
    have hl : 0 < (distinctLabels labels).length := by omega
    rw [List.getD_eq_getElem _ _ hl]
    exact List.getElem_mem hl
  have hpos : (distinctLabels labels).getD 1 0 ∈ distinctLabels labels := by
    have hl : 1 < (distinctLabels labels).length := by omega
    rw [List.getD_eq_getElem _ _ hl]
    exact List.getElem_mem hl
  have hnegv := hab _ (mem_distinctLabels.mp hneg)
  have hposv := hab _ (mem_distinctLabels.mp hpos)
  unfold ctPredict at hpred
  by_cases hw : w0.length ≠ w1.length
  · rw [if_pos hw] at hpred
    cases hpred
  · rw [if_neg hw] at hpred
    have hout := Except.ok.inj hpred
    intro y hy
    rw [← hout] at hy
    rcases List.mem_map.mp hy with ⟨rr, _, hyeq⟩
    rw [← hyeq]
    show (if _ < _ then _ else _) = a ∨ (if _ < _ then _ else _) = b
    split
    · rw [fitSuccess_posClass]
      exact hposv
    · rw [fitSuccess_negClass]
      exact hnegv

/-- C10 witness: the first prediction of a concrete run uses one of
the caller's class values 0 and 1. -/
theorem predict_returns_original_classes_witness :
    (predOr [] (ctPredict (fitOr dfltR (ctFit cfgW kThr kPos vW vW lblW))
        vW vW)).getD 0 9 = 0 ∨
      (predOr [] (ctPredict (fitOr dfltR (ctFit cfgW kThr kPos vW vW lblW))
        vW vW)).getD 0 9 = 1 := by
  have hlen : 0 < (predOr [] (ctPredict
      (fitOr dfltR (ctFit cfgW kThr kPos vW vW lblW)) vW vW)).length := by
    decide
  refine predict_returns_original_classes cfgW kThr kPos vW vW vW vW lblW
    (fitOr dfltR (ctFit cfgW kThr kPos vW vW lblW))
    (predOr [] (ctPredict (fitOr dfltR (ctFit cfgW kThr kPos vW vW lblW))
      vW vW)) 0 1 ?_ rfl rfl _ ?_
  · intro q hq
    simpa [lblW] using hq
  · rw [List.getD_eq_getElem _ _ hlen]
    exact List.getElem_mem hlen

/-- C9 witness: the determinism theorem applied to a concrete run. -/
theorem fit_seed_deterministic_witness :
    ctFit cfgW kThr kPos vW vW lblW = ctFit cfgW kThr kPos vW vW lblW ∧
      (fitOr dfltR (ctFit cfgW kThr kPos vW vW lblW)).final.hist =
        (fitOr dfltR (ctFit cfgW kThr kPos vW vW lblW)).final.hist :=
  ⟨(fit_seed_deterministic cfgW cfgW kThr kPos vW vW lblW
      rfl rfl rfl rfl rfl).1,
    (fit_seed_deterministic cfgW cfgW kThr kPos vW vW lblW
      rfl rfl rfl rfl rfl).2
      (fitOr dfltR (ctFit cfgW kThr kPos vW vW lblW))
      (fitOr dfltR (ctFit cfgW kThr kPos vW vW lblW)) rfl rfl⟩

end CoTrain
